import Mathlib

/-!
Formalisation of the two algorithmic cores of the trailofbits/vscode-masm
extension (`src/decorations.ts`):

* the capture-resolution and token-encoding engine of
  `TreeSitterSemanticTokensProvider.provideDocumentSemanticTokens`, and
* the inlay-hint aggregation and alignment engine of
  `updateInlayHintDecorations`.

Positions, spans and strings are embedded shallowly; JavaScript strings are
modelled by Lean `String` (operating on their character lists), JavaScript
numbers by `Nat`/`Int` as appropriate.
-/

namespace VscodeMasm

/-- A tree-sitter point, as in `node.startPosition` / `node.endPosition`:
zero-based row and column. -/
structure TSPoint where
  row : Nat
  column : Nat
deriving Repr, DecidableEq

/-- A query capture: the capture name plus the captured node's position data
(`startPosition`, `endPosition`, `startIndex`, `endIndex`). -/
structure Capture where
  name : String
  startPos : TSPoint
  endPos : TSPoint
  startIndex : Nat
  endIndex : Nat
deriving Repr, DecidableEq

/-- A semantic-token classification, one value of the
`captureToSemanticToken` table: `{ type, modifiers? }`. -/
structure TokenMapping where
  type : String
  modifiers : Option (List String)
deriving Repr, DecidableEq

/-- The `captureToSemanticToken` record from `decorations.ts`, read as a
finite map from capture names to classifications. -/
def captureToSemanticToken (name : String) : Option TokenMapping :=
  if name = "comment.doc" then some ⟨"comment", some ["documentation"]⟩
  else if name = "comment" then some ⟨"comment", none⟩
  else if name = "keyword" then some ⟨"keyword", none⟩
  else if name = "module" then some ⟨"namespace", none⟩
  else if name = "constant" then some ⟨"variable", some ["readonly", "declaration"]⟩
  else if name = "function" then some ⟨"function", none⟩
  else if name = "function.method" then some ⟨"method", none⟩
  else if name = "attribute" then some ⟨"decorator", none⟩
  else if name = "property" then some ⟨"property", none⟩
  else if name = "string.special.symbol" then some ⟨"string", none⟩
  else if name = "number" then some ⟨"number", none⟩
  else if name = "string" then some ⟨"string", none⟩
  else if name = "operator" then some ⟨"operator", none⟩
  else if name = "punctuation.delimiter" then some ⟨"punctuation", none⟩
  else if name = "punctuation.list_marker" then some ⟨"punctuation", none⟩
  else if name = "punctuation.bracket" then some ⟨"punctuation", none⟩
  else none

/-- The fixed `tokenTypes` table registered in the semantic-tokens legend. -/
def tokenTypes : List String :=
  ["comment", "keyword", "namespace", "variable", "function", "method",
   "decorator", "property", "string", "number", "operator", "punctuation"]

/-- The fixed `tokenModifiers` table registered in the semantic-tokens legend. -/
def tokenModifiers : List String :=
  ["documentation", "readonly", "declaration"]

def jsIndexOfAux (s : String) (i : Nat) : List String → Int
  | [] => -1
  | x :: xs => if x = s then (i : Int) else jsIndexOfAux s (i + 1) xs

/-- JavaScript `Array.prototype.indexOf` on a string array: the index of the
first occurrence, `-1` when the element is absent. -/
def jsIndexOf (l : List String) (s : String) : Int := jsIndexOfAux s 0 l

/-- `encodeModifiers` from `decorations.ts`: OR together one bit per
modifier found in the `tokenModifiers` table. -/
def encodeModifiers (modifiers : Option (List String)) : Nat :=
  match modifiers with
  | none => 0
  | some ms =>
    ms.foldl (fun result m =>
      let idx := jsIndexOf tokenModifiers m
      if 0 ≤ idx then result ||| (1 <<< idx.toNat) else result) 0

/-- JavaScript `String.prototype.split` with a single-character separator,
on the string's character list. -/
def splitChar (sep : Char) : List Char → List (List Char)
  | [] => [[]]
  | c :: cs =>
    match splitChar sep cs with
    | [] => [[]]
    | p :: ps => if c = sep then [] :: p :: ps else (c :: p) :: ps

/-- `captureName.split(".")`, as a list of Lean strings. -/
def jsSplitDot (s : String) : List String :=
  (splitChar '.' s.data).map fun l => String.mk l

/-- JavaScript `Array.prototype.join(".")` on a string array. -/
def joinDotStrs : List String → String
  | [] => ""
  | [s] => s
  | s :: rest => s ++ "." ++ joinDotStrs rest

/-- The backwards loop in `getTokenMapping`: check
`parts.slice(0, i + 1).join(".")` for `i = parts.length - 1` down to `0`.
`tryPrefixes parts n` is the loop with `n` iterations left, i.e. starting
at `i = n - 1`. -/
def tryPrefixes (parts : List String) : Nat → Option TokenMapping
  | 0 => none
  | i + 1 =>
    match captureToSemanticToken (joinDotStrs (parts.take (i + 1))) with
    | some m => some m
    | none => tryPrefixes parts i

/-- `getTokenMapping` from `decorations.ts`: exact lookup in the table first,
then the dotted-prefix fallback loop. -/
def getTokenMapping (captureName : String) : Option TokenMapping :=
  match captureToSemanticToken captureName with
  | some m => some m
  | none => tryPrefixes (jsSplitDot captureName) (jsSplitDot captureName).length

/-- The comparator passed to `captures.sort` in
`provideDocumentSemanticTokens`: row difference, then column difference, then
difference of the captures' `endIndex - startIndex` span lengths. -/
def captureCmp (a b : Capture) : Int :=
  if a.startPos.row ≠ b.startPos.row then (a.startPos.row : Int) - b.startPos.row
  else if a.startPos.column ≠ b.startPos.column then
    (a.startPos.column : Int) - b.startPos.column
  else ((a.endIndex : Int) - a.startIndex) - ((b.endIndex : Int) - b.startIndex)

/-- `captures.sort(cmp)`: JavaScript array sort is stable, modelled by a
stable insertion sort ordered by the comparator. -/
def sortCaptures (captures : List Capture) : List Capture :=
  List.insertionSort (fun a b => captureCmp a b ≤ 0) captures

/-- One entry of the `processedPositions` array: a claimed column range
`[startCol, endCol)` on a row. -/
structure ClaimedRange where
  row : Nat
  startCol : Nat
  endCol : Nat
deriving Repr, DecidableEq

/-- One `builder.push(line, char, length, tokenType, tokenModifiers)` call:
a resolved semantic token. -/
structure Token where
  line : Nat
  startChar : Nat
  length : Nat
  tokenType : Int
  modifierBits : Nat
deriving Repr, DecidableEq

/-- `isOverlapping` from `provideDocumentSemanticTokens`: does
`[startCol, endCol)` on `row` intersect any already-claimed range? -/
def isOverlapping (processedPositions : List ClaimedRange) (row startCol endCol : Nat) : Bool :=
  processedPositions.any fun pos =>
    pos.row == row && decide (startCol < pos.endCol) && decide (endCol > pos.startCol)

/-- Processing of one candidate span: the `length > 0 && !isOverlapping`
test followed by `builder.push` and `markProcessed`. -/
def emitSpan (tm : TokenMapping) (st : List ClaimedRange) (row startCol endCol : Nat) :
    List Token × List ClaimedRange :=
  if 0 < endCol - startCol ∧ isOverlapping st row startCol endCol = false then
    ([⟨row, startCol, endCol - startCol, jsIndexOf tokenTypes tm.type,
        encodeModifiers tm.modifiers⟩],
      st ++ [⟨row, startCol, endCol⟩])
  else ([], st)

/-- The row numbers visited by `for (let row = start; row <= end; row++)`,
given the iteration count. -/
def forRows (start : Nat) : Nat → List Nat
  | 0 => []
  | n + 1 => start :: forRows (start + 1) n

/-- The rows `startRow, startRow + 1, ..., endRow`. -/
def rowsRange (startRow endRow : Nat) : List Nat :=
  forRows startRow (endRow + 1 - startRow)

/-- The start column of a capture's sub-span on one row:
`row === startPos.row ? startPos.column : 0`. -/
def subStartCol (c : Capture) (row : Nat) : Nat :=
  if row = c.startPos.row then c.startPos.column else 0

/-- The end column of a capture's sub-span on one row:
`row === endPos.row ? endPos.column : lineText.length`, with
`lines[row] || ""` as the line text. -/
def subEndCol (lines : List String) (c : Capture) (row : Nat) : Nat :=
  if row = c.endPos.row then c.endPos.column else (lines.getD row "").length

/-- The multi-line branch of the capture loop: one candidate sub-span per
visited row — the first row from the capture's start column to end of line,
interior rows from column `0` to end of line, the last row from column `0`
to the capture's end column. -/
def processRows (lines : List String) (tm : TokenMapping) (c : Capture) :
    List Nat → List ClaimedRange → List Token × List ClaimedRange
  | [], st => ([], st)
  | row :: rest, st =>
    let e := emitSpan tm st row (subStartCol c row) (subEndCol lines c row)
    let r := processRows lines tm c rest e.2
    (e.1 ++ r.1, r.2)

/-- Processing of a single capture inside the main loop of
`provideDocumentSemanticTokens`: single-line captures emit one candidate
span, multi-line captures one candidate per touched row. -/
def processCapture (lines : List String) (c : Capture) (tm : TokenMapping)
    (st : List ClaimedRange) : List Token × List ClaimedRange :=
  if c.startPos.row = c.endPos.row then
    emitSpan tm st c.startPos.row c.startPos.column c.endPos.column
  else
    processRows lines tm c (rowsRange c.startPos.row c.endPos.row) st

/-- The main capture loop: captures without a classification are skipped,
the claimed ranges are threaded through. -/
def resolveLoop (lines : List String) : List Capture → List ClaimedRange → List Token
  | [], _ => []
  | c :: rest, st =>
    match getTokenMapping c.name with
    | none => resolveLoop lines rest st
    | some tm =>
      let p := processCapture lines c tm st
      p.1 ++ resolveLoop lines rest p.2

/-- The capture-resolution pipeline of `provideDocumentSemanticTokens`:
sort the captures by the comparator, then walk them in order with per-line
overlap claiming, starting from no claimed ranges. -/
def resolveTokens (text : String) (captures : List Capture) : List Token :=
  resolveLoop ((splitChar '\n' text.data).map fun l => String.mk l) (sortCaptures captures) []

/-- The guard structure of `provideDocumentSemanticTokens`: a missing
parser/query, a parse exception, a `null` tree and a query exception all
yield an empty token list; otherwise the captures are resolved. -/
def provideSemanticTokens (ready : Bool) (text : String)
    (parseResult : Except Unit (Option Unit))
    (queryResult : Except Unit (List Capture)) : List Token :=
  if ready = false then []
  else
    match parseResult with
    | .error _ => []
    | .ok none => []
    | .ok (some _) =>
      match queryResult with
      | .error _ => []
      | .ok captures => resolveTokens text captures

/-! ## Token encoder

The delta encoding is performed by the editor API's `SemanticTokensBuilder`,
which is not part of this repository's sources; it is modelled from the
specification of the token wire format. -/

/-- Modelled from the spec: the token wire format produced by the builder
used in `provideDocumentSemanticTokens` (the builder itself is editor
library code, absent from this repository's sources). Five integers per
token: delta line from the previous token, delta start column (relative to
the previous token's start column when on the same line, absolute
otherwise), length, type index, modifier bitmask. -/
def encodeTokensAux (prevLine prevChar : Nat) : List Token → List Int
  | [] => []
  | t :: ts =>
    let deltaLine : Int := (t.line : Int) - prevLine
    let deltaStart : Int :=
      if t.line = prevLine then (t.startChar : Int) - prevChar else (t.startChar : Int)
    deltaLine :: deltaStart :: (t.length : Int) :: t.tokenType :: (t.modifierBits : Int) ::
      encodeTokensAux t.line t.startChar ts

/-- Modelled from the spec: encode an ordered resolved-token list into the
flat five-integers-per-token delta format, starting from position `(0, 0)`. -/
def encodeTokens (ts : List Token) : List Int := encodeTokensAux 0 0 ts

/-- Modelled from the spec: consumer-side decoding of the wire format,
replaying the deltas in order. -/
def decodeTokensAux (prevLine prevChar : Nat) : List Int → List Token
  | deltaLine :: deltaStart :: len :: ty :: mods :: rest =>
    let line : Nat := ((prevLine : Int) + deltaLine).toNat
    let startChar : Nat :=
      if deltaLine = 0 then ((prevChar : Int) + deltaStart).toNat else deltaStart.toNat
    ⟨line, startChar, len.toNat, ty, mods.toNat⟩ :: decodeTokensAux line startChar rest
  | _ => []

/-- Modelled from the spec: decode a wire-format integer sequence back into
a resolved-token list, starting from position `(0, 0)`. -/
def decodeTokens (l : List Int) : List Token := decodeTokensAux 0 0 l

/-- Ascending `(line, startColumn)` order of a resolved-token list. -/
def tokensOrdered (ts : List Token) : Prop :=
  List.Chain' (fun a b => a.line < b.line ∨ (a.line = b.line ∧ a.startChar ≤ b.startChar)) ts

/-! ## Inlay-hint aggregation (`updateInlayHintDecorations`) -/

/-- The character class `[\s ]` of the regexes in
`updateInlayHintDecorations`: JavaScript regex whitespace (which already
contains the no-break space ` `). The same set is also what
`String.prototype.trim` removes. -/
def isJsWs (c : Char) : Bool :=
  c = ' ' || c = '\t' || c = '\n' || c = '\r' ||
  c.toNat = 0x0B || c.toNat = 0x0C || c.toNat = 0xA0 || c.toNat = 0x1680 ||
  (decide (0x2000 ≤ c.toNat) && decide (c.toNat ≤ 0x200A)) ||
  c.toNat = 0x2028 || c.toNat = 0x2029 || c.toNat = 0x202F || c.toNat = 0x205F ||
  c.toNat = 0x3000 || c.toNat = 0xFEFF

/-- The no-break space character ` `. -/
def nbsp : Char := ' '

/-- One part of a structured inlay-hint label (`InlayHintLabelPart`). -/
structure LabelPart where
  value : String
deriving Repr, DecidableEq

/-- An inlay-hint label: either a plain string or a list of label parts. -/
inductive HintLabel
  | str : String → HintLabel
  | parts : List LabelPart → HintLabel
deriving Repr, DecidableEq

/-- An LSP position: zero-based line and character. -/
structure LspPosition where
  line : Nat
  character : Nat
deriving Repr, DecidableEq

/-- An inlay hint as received from the language server. -/
structure InlayHint where
  position : LspPosition
  label : HintLabel
deriving Repr, DecidableEq

/-- The label-extraction step of the grouping loop: a string label is used
directly; a non-empty part list is joined with no separator; a hint whose
label is an empty part list is skipped (`continue`). -/
def hintLabelText (h : InlayHint) : Option String :=
  match h.label with
  | .str s => some s
  | .parts ps =>
    if ps.length > 0 then some (String.join (ps.map fun p => p.value)) else none

/-- `Map.prototype.get` on an insertion-ordered association list. -/
def mapGet (m : List (Nat × List String)) (k : Nat) : Option (List String) :=
  match m with
  | [] => none
  | (k', v') :: rest => if k' = k then some v' else mapGet rest k

/-- `Map.prototype.set` on an insertion-ordered association list: an
existing key keeps its position, a new key is appended. -/
def mapSet (m : List (Nat × List String)) (k : Nat) (v : List String) :
    List (Nat × List String) :=
  match m with
  | [] => [(k, v)]
  | (k', v') :: rest => if k' = k then (k, v) :: rest else (k', v') :: mapSet rest k v

def groupHintsAux (m : List (Nat × List String)) : List InlayHint → List (Nat × List String)
  | [] => m
  | h :: rest =>
    match hintLabelText h with
    | none => groupHintsAux m rest
    | some t =>
      let lineNum := h.position.line
      let existing := (mapGet m lineNum).getD []
      groupHintsAux (mapSet m lineNum (existing ++ [t])) rest

/-- The `hintsByLine` grouping loop of `updateInlayHintDecorations`: group
label texts by hint line, preserving both the first-seen order of lines and
the supplied order of hints within a line. -/
def groupHints (hints : List InlayHint) : List (Nat × List String) :=
  groupHintsAux [] hints

/-- `text.replace(/[\s ]+/g, " ")` on a character list: every maximal
whitespace run becomes a single ordinary space.  The boolean argument
records whether the previous character belonged to a whitespace run. -/
def collapseWsAux : List Char → Bool → List Char
  | [], _ => []
  | c :: cs, inRun =>
    if isJsWs c then
      if inRun then collapseWsAux cs true else ' ' :: collapseWsAux cs true
    else c :: collapseWsAux cs false

def collapseWs (l : List Char) : List Char := collapseWsAux l false

/-- Removal of trailing whitespace from a character list. -/
def dropTrailWs : List Char → List Char
  | [] => []
  | c :: cs =>
    match dropTrailWs cs with
    | [] => if isJsWs c then [] else [c]
    | r => c :: r

/-- `String.prototype.trim` on a character list: leading and trailing
whitespace removed. -/
def trimJs (l : List Char) : List Char :=
  dropTrailWs (l.dropWhile isJsWs)

/-- `text.replace(/[\s ]+/g, " ").trim()`: the per-fragment label
normalisation of `updateInlayHintDecorations`. -/
def normalizeLabel (s : String) : String :=
  String.mk (trimJs (collapseWs s.data))

/-- JavaScript `Array.prototype.join(" ")` on a string array. -/
def joinSpaceStrs : List String → String
  | [] => ""
  | [s] => s
  | s :: rest => s ++ " " ++ joinSpaceStrs rest

/-- `combined.replace(/ /g, " ")`: every ordinary space becomes a
no-break space. -/
def replaceSpaces (s : String) : String :=
  String.mk (s.data.map fun c => if c = ' ' then nbsp else c)

/-- The `combinedText` computation of `updateInlayHintDecorations` for one
line's label texts: leading-whitespace marker from the first label, all
labels normalised, joined with single spaces, prefixed with `"# "` plus the
marker, and all ordinary spaces replaced by no-break spaces. -/
def lineCombinedText (labelTexts : List String) : String :=
  replaceSpaces ("# " ++ String.mk ((labelTexts.headD "").data.takeWhile isJsWs) ++
    joinSpaceStrs (labelTexts.map normalizeLabel))

/-- The `marginChars` computation of `updateInlayHintDecorations`. -/
def lineMargin (alignColumn minPadding : Int) (lineLength : Nat) : Int :=
  if 0 < alignColumn ∧ (lineLength : Int) < alignColumn then
    alignColumn - lineLength
  else minPadding

/-- One decoration emitted by `updateInlayHintDecorations`: anchored at the
end of its line, with the combined text rendered `marginChars` columns after
the line. -/
structure Decoration where
  line : Nat
  anchorCol : Nat
  contentText : String
  marginChars : Int
deriving Repr, DecidableEq

/-- The decoration-building loop of `updateInlayHintDecorations`: one
decoration per grouped line, in map iteration order. -/
def computeDecorations (alignColumn minPadding : Int) (docLines : List String)
    (hints : List InlayHint) : List Decoration :=
  (groupHints hints).map fun g =>
    let lineLength := (docLines.getD g.1 "").length
    ⟨g.1, lineLength, lineCombinedText g.2, lineMargin alignColumn minPadding lineLength⟩

/-- `Map.prototype.get` for the string-keyed decoration cache. -/
def cacheGet (m : List (String × List Decoration)) (k : String) : Option (List Decoration) :=
  match m with
  | [] => none
  | (k', v') :: rest => if k' = k then some v' else cacheGet rest k

/-- `Map.prototype.set` for the string-keyed decoration cache. -/
def cacheSet (m : List (String × List Decoration)) (k : String) (v : List Decoration) :
    List (String × List Decoration) :=
  match m with
  | [] => [(k, v)]
  | (k', v') :: rest => if k' = k then (k, v) :: rest else (k', v') :: cacheSet rest k v

/-- The mutable state touched by `updateInlayHintDecorations`: the editor's
rendered decorations (`editor.setDecorations`) and the module-level
`documentDecorations` cache. -/
structure DecoState where
  rendered : List Decoration
  cache : List (String × List Decoration)
deriving Repr, DecidableEq

/-- The result of the `textDocument/inlayHint` request: an exception, or
`null`, or a hint list. -/
abbrev FetchResult := Except Unit (Option (List InlayHint))

/-- `updateInlayHintDecorations` as a state transformer: guards for a
missing client or disabled hint type and for a non-MASM document, then the
empty-result and error paths, then the decoration computation.  A thrown
request is the `Except.error` case, handled by the `catch` block, which
clears the rendered decorations only. -/
def updateInlayHintDecorations (clientPresent : Bool) (hintType : String)
    (languageId : String) (uri : String) (alignColumn minPadding : Int)
    (docLines : List String) (fetch : FetchResult) (st : DecoState) : DecoState :=
  if clientPresent = false ∨ hintType = "none" then { st with rendered := [] }
  else if languageId ≠ "masm" then st
  else
    match fetch with
    | .error _ => { st with rendered := [] }
    | .ok none => { rendered := [], cache := cacheSet st.cache uri [] }
    | .ok (some hints) =>
      if hints.length = 0 then { rendered := [], cache := cacheSet st.cache uri [] }
      else
        let decorations := computeDecorations alignColumn minPadding docLines hints
        { rendered := decorations, cache := cacheSet st.cache uri decorations }

/-! ## Derived notions used to state the verified properties -/

/-- The claimed range recorded by `markProcessed` for an emitted token. -/
def claimOf (t : Token) : ClaimedRange := ⟨t.line, t.startChar, t.startChar + t.length⟩

/-- Two tokens occupy disjoint ranges: they are on different lines or their
half-open `[startChar, startChar + length)` column intervals do not meet. -/
def tokDisjoint (t1 t2 : Token) : Prop :=
  t1.line ≠ t2.line ∨ t1.startChar + t1.length ≤ t2.startChar ∨
    t2.startChar + t2.length ≤ t1.startChar

/-- The candidate sub-span of a capture on one row, tested against a fixed
claimed-range state: the first row runs from the capture's start column to
the end of the line, interior rows from column `0` to the end of the line,
the last row from column `0` to the capture's end column. -/
def rowCandidate (lines : List String) (tm : TokenMapping) (c : Capture)
    (st : List ClaimedRange) (row : Nat) : Option Token :=
  if 0 < subEndCol lines c row - subStartCol c row ∧
      isOverlapping st row (subStartCol c row) (subEndCol lines c row) = false then
    some ⟨row, subStartCol c row, subEndCol lines c row - subStartCol c row,
      jsIndexOf tokenTypes tm.type, encodeModifiers tm.modifiers⟩
  else none

/-- The sort order named by the specification: start line, then start
column, then ascending span length. -/
def lexLE (a b : Capture) : Prop :=
  a.startPos.row < b.startPos.row ∨
    (a.startPos.row = b.startPos.row ∧
      (a.startPos.column < b.startPos.column ∨
        (a.startPos.column = b.startPos.column ∧
          (a.endIndex : Int) - a.startIndex ≤ (b.endIndex : Int) - b.startIndex)))

/-- Character lists joined with `'.'` separators. -/
def charJoinDot : List (List Char) → List Char
  | [] => []
  | [w] => w
  | w :: ws => w ++ '.' :: charJoinDot ws

/-- The chain of dotted prefixes of a capture name, longest first: the full
name, then the name with its last dot-delimited component removed, and so
on down to the first component alone. -/
def dottedPrefixes (name : String) : List String :=
  let parts := jsSplitDot name
  (List.range parts.length).reverse.map fun i => joinDotStrs (parts.take (i + 1))

/-- The maximal whitespace-free words of a character list; `cur` holds the
current word, reversed. -/
def wordsAux (cur : List Char) : List Char → List (List Char)
  | [] => if cur.isEmpty then [] else [cur.reverse]
  | c :: cs =>
    if isJsWs c then
      if cur.isEmpty then wordsAux [] cs else cur.reverse :: wordsAux [] cs
    else wordsAux (c :: cur) cs

/-- The maximal whitespace-free words of a character list. -/
def wordsOf (l : List Char) : List (List Char) := wordsAux [] l

/-- Words joined with single ordinary spaces. -/
def joinWords : List (List Char) → List Char
  | [] => []
  | [w] => w
  | w :: ws => w ++ ' ' :: joinWords ws

/-- Label normalisation as the specification words it: the label's
whitespace-separated words, rejoined with single ordinary spaces. -/
def specNormalize (s : String) : String := String.mk (joinWords (wordsOf s.data))

/-- The per-line combined text as the claim describes it once the
indentation-marker whitespace class is read as general whitespace: the
leading whitespace run of the first fragment's raw label, then the
normalised labels joined with single spaces, prefixed with the fixed
marker, all ordinary spaces replaced by no-break spaces. -/
def amendedCombinedText (labelTexts : List String) : String :=
  replaceSpaces ("# " ++ String.mk ((labelTexts.headD "").data.takeWhile isJsWs) ++
    joinSpaceStrs (labelTexts.map specNormalize))

/-- An ordinary space or the no-break space: the whitespace class the claim
names for the indentation marker. -/
def isSpaceOrNbsp (c : Char) : Bool := c = ' ' || c = nbsp

/-- The per-line combined text exactly as the claim states it: the
indentation marker is the leading run of ordinary spaces and no-break
spaces only. -/
def claimCombinedText (labelTexts : List String) : String :=
  replaceSpaces ("# " ++ String.mk ((labelTexts.headD "").data.takeWhile isSpaceOrNbsp) ++
    joinSpaceStrs (labelTexts.map specNormalize))

/-! ## Overlap bookkeeping lemmas -/

theorem isOverlapping_append (st1 st2 : List ClaimedRange) (row s e : Nat) :
    isOverlapping (st1 ++ st2) row s e =
      (isOverlapping st1 row s e || isOverlapping st2 row s e) := by
  simp [isOverlapping]

theorem not_overlap_of_mem {S : List ClaimedRange} {row s e : Nat}
    (h : isOverlapping S row s e = false) {p : ClaimedRange} (hp : p ∈ S) :
    p.row ≠ row ∨ e ≤ p.startCol ∨ p.endCol ≤ s := by
  simp only [isOverlapping, List.any_eq_false, Bool.and_eq_true, beq_iff_eq,
    decide_eq_true_eq, not_and, not_lt] at h
  have := h p hp
  omega

theorem pairwise_of_length_le_one {α : Type} {R : α → α → Prop} :
    ∀ {l : List α}, l.length ≤ 1 → List.Pairwise R l
  | [], _ => .nil
  | [_], _ => by simp
  | _ :: _ :: _, h => by simp at h

theorem emitSpan_spec (tm : TokenMapping) (st : List ClaimedRange) (row s e : Nat) :
    (emitSpan tm st row s e).2 = st ++ (emitSpan tm st row s e).1.map claimOf ∧
    (emitSpan tm st row s e).1.length ≤ 1 ∧
    ∀ t ∈ (emitSpan tm st row s e).1,
      t.line = row ∧ t.startChar = s ∧ t.startChar + t.length = e ∧ 0 < t.length ∧
      isOverlapping st row s e = false := by
  unfold emitSpan
  split
  case isTrue h =>
    refine ⟨?_, by simp, ?_⟩
    · have he : s + (e - s) = e := by omega
      simp only [List.map_cons, List.map_nil, claimOf, he]
    · intro t ht
      simp only [List.mem_singleton] at ht
      subst ht
      refine ⟨rfl, rfl, ?_, ?_, h.2⟩
      · show s + (e - s) = e
        omega
      · show 0 < e - s
        exact h.1
  case isFalse h => simp

theorem processRows_cons (lines : List String) (tm : TokenMapping) (c : Capture)
    (row : Nat) (rest : List Nat) (st : List ClaimedRange) :
    processRows lines tm c (row :: rest) st =
      ((emitSpan tm st row (subStartCol c row) (subEndCol lines c row)).1 ++
        (processRows lines tm c rest
          (emitSpan tm st row (subStartCol c row) (subEndCol lines c row)).2).1,
       (processRows lines tm c rest
          (emitSpan tm st row (subStartCol c row) (subEndCol lines c row)).2).2) :=
  rfl

theorem processRows_spec (lines : List String) (tm : TokenMapping) (c : Capture)
    (rows : List Nat) : ∀ (st : List ClaimedRange),
    (processRows lines tm c rows st).2 =
      st ++ (processRows lines tm c rows st).1.map claimOf ∧
    List.Pairwise tokDisjoint (processRows lines tm c rows st).1 ∧
    ∀ t ∈ (processRows lines tm c rows st).1,
      0 < t.length ∧
      isOverlapping st t.line t.startChar (t.startChar + t.length) = false := by
  induction rows with
  | nil => intro st; simp [processRows]
  | cons row rest ih =>
    intro st
    rw [processRows_cons]
    set s := subStartCol c row with hs
    set e := subEndCol lines c row with he
    obtain ⟨hE2, hElen, hEt⟩ := emitSpan_spec tm st row s e
    obtain ⟨hR2, hRpw, hRt⟩ := ih (emitSpan tm st row s e).2
    refine ⟨?_, ?_, ?_⟩
    · simp only [List.map_append, ← List.append_assoc, ← hE2, hR2]
    · refine List.pairwise_append.2 ⟨pairwise_of_length_le_one hElen, hRpw, ?_⟩
      intro t1 h1 t2 h2
      have hover := (hRt t2 h2).2
      rw [hE2, isOverlapping_append, Bool.or_eq_false_iff] at hover
      have hmem : claimOf t1 ∈ (emitSpan tm st row s e).1.map claimOf :=
        List.mem_map_of_mem claimOf h1
      have hd := not_overlap_of_mem hover.2 hmem
      simp only [claimOf] at hd
      unfold tokDisjoint
      omega
    · intro t ht
      rcases List.mem_append.1 ht with hmem | hmem
      · obtain ⟨hline, hsc, hse, hlen, hov⟩ := hEt t hmem
        refine ⟨hlen, ?_⟩
        rw [hse, hsc, hline]
        exact hov
      · obtain ⟨hlen, hov⟩ := hRt t hmem
        rw [hE2, isOverlapping_append, Bool.or_eq_false_iff] at hov
        exact ⟨hlen, hov.1⟩

theorem processCapture_spec (lines : List String) (c : Capture) (tm : TokenMapping)
    (st : List ClaimedRange) :
    (processCapture lines c tm st).2 =
      st ++ (processCapture lines c tm st).1.map claimOf ∧
    List.Pairwise tokDisjoint (processCapture lines c tm st).1 ∧
    ∀ t ∈ (processCapture lines c tm st).1,
      0 < t.length ∧
      isOverlapping st t.line t.startChar (t.startChar + t.length) = false := by
  unfold processCapture
  split
  case isTrue h =>
    obtain ⟨hE2, hElen, hEt⟩ := emitSpan_spec tm st c.startPos.row c.startPos.column c.endPos.column
    refine ⟨hE2, pairwise_of_length_le_one hElen, ?_⟩
    intro t ht
    obtain ⟨hline, hsc, hse, hlen, hov⟩ := hEt t ht
    refine ⟨hlen, ?_⟩
    rw [hse, hsc, hline]
    exact hov
  case isFalse h => exact processRows_spec lines tm c _ st

theorem resolveLoop_spec (lines : List String) (cs : List Capture) :
    ∀ (st : List ClaimedRange),
    List.Pairwise tokDisjoint (resolveLoop lines cs st) ∧
    ∀ t ∈ resolveLoop lines cs st,
      0 < t.length ∧
      isOverlapping st t.line t.startChar (t.startChar + t.length) = false := by
  induction cs with
  | nil => intro st; simp [resolveLoop]
  | cons c rest ih =>
    intro st
    cases hmap : getTokenMapping c.name with
    | none => simpa only [resolveLoop, hmap] using ih st
    | some tm =>
      simp only [resolveLoop, hmap]
      obtain ⟨hP2, hPpw, hPt⟩ := processCapture_spec lines c tm st
      obtain ⟨hRpw, hRt⟩ := ih (processCapture lines c tm st).2
      refine ⟨?_, ?_⟩
      · refine List.pairwise_append.2 ⟨hPpw, hRpw, ?_⟩
        intro t1 h1 t2 h2
        have hover := (hRt t2 h2).2
        rw [hP2, isOverlapping_append, Bool.or_eq_false_iff] at hover
        have hmem : claimOf t1 ∈ (processCapture lines c tm st).1.map claimOf :=
          List.mem_map_of_mem claimOf h1
        have hd := not_overlap_of_mem hover.2 hmem
        simp only [claimOf] at hd
        unfold tokDisjoint
        omega
      · intro t ht
        rcases List.mem_append.1 ht with hmem | hmem
        · exact hPt t hmem
        · obtain ⟨hlen, hov⟩ := hRt t hmem
          rw [hP2, isOverlapping_append, Bool.or_eq_false_iff] at hov
          exact ⟨hlen, hov.1⟩

/-- C1: for every capture set and every document text, the resolved tokens
have pairwise disjoint `[startChar, startChar + length)` column ranges on
every line — a candidate span overlapping an already-claimed range on its
line is skipped and contributes nothing. -/
theorem resolveTokens_no_overlap (text : String) (captures : List Capture) :
    List.Pairwise tokDisjoint (resolveTokens text captures) := by
  unfold resolveTokens
  exact (resolveLoop_spec _ _ []).1

/-! ## Per-line independence of multi-line captures -/

theorem emitSpan_pos {tm : TokenMapping} {st : List ClaimedRange} {row s e : Nat}
    (hc : 0 < e - s ∧ isOverlapping st row s e = false) :
    emitSpan tm st row s e =
      ([⟨row, s, e - s, jsIndexOf tokenTypes tm.type, encodeModifiers tm.modifiers⟩],
        st ++ [⟨row, s, e⟩]) :=
  if_pos hc

theorem emitSpan_neg {tm : TokenMapping} {st : List ClaimedRange} {row s e : Nat}
    (hc : ¬(0 < e - s ∧ isOverlapping st row s e = false)) :
    emitSpan tm st row s e = ([], st) :=
  if_neg hc

theorem rowCandidate_pos {lines : List String} {tm : TokenMapping} {c : Capture}
    {st : List ClaimedRange} {row : Nat}
    (hc : 0 < subEndCol lines c row - subStartCol c row ∧
      isOverlapping st row (subStartCol c row) (subEndCol lines c row) = false) :
    rowCandidate lines tm c st row =
      some ⟨row, subStartCol c row, subEndCol lines c row - subStartCol c row,
        jsIndexOf tokenTypes tm.type, encodeModifiers tm.modifiers⟩ :=
  if_pos hc

theorem rowCandidate_neg {lines : List String} {tm : TokenMapping} {c : Capture}
    {st : List ClaimedRange} {row : Nat}
    (hc : ¬(0 < subEndCol lines c row - subStartCol c row ∧
      isOverlapping st row (subStartCol c row) (subEndCol lines c row) = false)) :
    rowCandidate lines tm c st row = none :=
  if_neg hc

theorem forRows_le (n : Nat) : ∀ (start : Nat), ∀ r ∈ forRows start n, start ≤ r := by
  induction n with
  | zero => intro start r hr; simp [forRows] at hr
  | succ n ih =>
    intro start r hr
    simp only [forRows, List.mem_cons] at hr
    rcases hr with rfl | hr
    · exact Nat.le_refl r
    · exact Nat.le_of_succ_le (ih (start + 1) r hr)

theorem forRows_pairwise_ne (n : Nat) : ∀ (start : Nat), (forRows start n).Pairwise (· ≠ ·) := by
  induction n with
  | zero => intro start; exact .nil
  | succ n ih =>
    intro start
    refine List.Pairwise.cons ?_ (ih (start + 1))
    intro r hr
    have := forRows_le n (start + 1) r hr
    omega

theorem isOverlapping_single_ne (p : ClaimedRange) {r : Nat} (h : p.row ≠ r) (s e : Nat) :
    isOverlapping [p] r s e = false := by
  simp [isOverlapping, h]

theorem rowCandidate_append_ne (lines : List String) (tm : TokenMapping) (c : Capture)
    (st : List ClaimedRange) (p : ClaimedRange) {r : Nat} (h : p.row ≠ r) :
    rowCandidate lines tm c (st ++ [p]) r = rowCandidate lines tm c st r := by
  unfold rowCandidate
  rw [isOverlapping_append, isOverlapping_single_ne p h, Bool.or_false]

theorem processRows_eq_filterMap (lines : List String) (tm : TokenMapping) (c : Capture)
    (rows : List Nat) : rows.Pairwise (· ≠ ·) → ∀ st,
    (processRows lines tm c rows st).1 = rows.filterMap (rowCandidate lines tm c st) := by
  induction rows with
  | nil => intro _ st; simp [processRows]
  | cons row rest ih =>
    intro hpw st
    obtain ⟨hhead, htail⟩ := List.pairwise_cons.1 hpw
    rw [processRows_cons, List.filterMap_cons]
    by_cases hc : 0 < subEndCol lines c row - subStartCol c row ∧
        isOverlapping st row (subStartCol c row) (subEndCol lines c row) = false
    · rw [emitSpan_pos hc, rowCandidate_pos hc]
      simp only [List.singleton_append, List.cons.injEq, true_and]
      rw [ih htail]
      refine List.filterMap_congr ?_
      intro r hr
      exact rowCandidate_append_ne lines tm c st ⟨row, subStartCol c row, subEndCol lines c row⟩
        (hhead r hr)
    · rw [emitSpan_neg hc, rowCandidate_neg hc]
      simp only [List.nil_append]
      exact ih htail st

/-- C3: a multi-line capture is split into one candidate sub-span per line it
touches — the first line from its start column to end of line, interior lines
from column `0` to end of line, the last line from column `0` to its end
column — and each sub-span is tested and claimed against the per-line overlap
state independently: the emitted sub-spans are exactly the candidates that do
not collide with the state the capture was entered with.  Hence a multi-line
capture colliding with a higher-priority capture on one line only is emitted
for exactly the non-colliding lines, as in the concrete scenario where a
capture spanning lines 0–2 loses line 1 to an earlier multi-line capture but
keeps lines 0 and 2. -/
theorem multiline_split_independent :
    (∀ (lines : List String) (c : Capture) (tm : TokenMapping) (st : List ClaimedRange),
      c.startPos.row ≠ c.endPos.row →
      processCapture lines c tm st =
        processRows lines tm c (rowsRange c.startPos.row c.endPos.row) st) ∧
    (∀ (lines : List String) (tm : TokenMapping) (c : Capture) (st : List ClaimedRange)
      (startRow endRow : Nat),
      (processRows lines tm c (rowsRange startRow endRow) st).1 =
        (rowsRange startRow endRow).filterMap (rowCandidate lines tm c st)) ∧
    resolveTokens "abcdefgh\nijklmnop\nqrstuvwx"
      [⟨"keyword", ⟨0, 0⟩, ⟨0, 4⟩, 0, 4⟩,
       ⟨"comment", ⟨0, 3⟩, ⟨1, 6⟩, 3, 15⟩,
       ⟨"string", ⟨0, 5⟩, ⟨2, 3⟩, 5, 21⟩] =
      [⟨0, 0, 4, 1, 0⟩, ⟨1, 0, 6, 0, 0⟩, ⟨0, 5, 3, 8, 0⟩, ⟨2, 0, 3, 8, 0⟩] := by
  refine ⟨fun lines c tm st h => if_neg h,
    fun lines tm c st startRow endRow =>
      processRows_eq_filterMap lines tm c _ (forRows_pairwise_ne _ _) st,
    by decide⟩

/-- Concrete instance of the multi-line branch equation of
`multiline_split_independent`. -/
theorem multiline_split_independent_witness :
    (⟨"string", ⟨0, 1⟩, ⟨2, 1⟩, 1, 7⟩ : Capture).startPos.row ≠
      (⟨"string", ⟨0, 1⟩, ⟨2, 1⟩, 1, 7⟩ : Capture).endPos.row ∧
    processCapture ["ab", "cd", "ef"] ⟨"string", ⟨0, 1⟩, ⟨2, 1⟩, 1, 7⟩ ⟨"string", none⟩ [] =
      processRows ["ab", "cd", "ef"] ⟨"string", none⟩ ⟨"string", ⟨0, 1⟩, ⟨2, 1⟩, 1, 7⟩
        (rowsRange 0 2) [] :=
  ⟨by decide,
    multiline_split_independent.1 ["ab", "cd", "ef"] ⟨"string", ⟨0, 1⟩, ⟨2, 1⟩, 1, 7⟩
      ⟨"string", none⟩ [] (by decide)⟩

/-! ## Sorting of captures and specificity priority -/

theorem captureCmp_le_iff (a b : Capture) : captureCmp a b ≤ 0 ↔ lexLE a b := by
  unfold captureCmp lexLE
  split_ifs with h1 h2 <;> omega

theorem captureCmp_total (a b : Capture) : captureCmp a b ≤ 0 ∨ captureCmp b a ≤ 0 := by
  unfold captureCmp
  split_ifs <;> omega

theorem captureCmp_trans (a b c : Capture) (h1 : captureCmp a b ≤ 0) (h2 : captureCmp b c ≤ 0) :
    captureCmp a c ≤ 0 := by
  unfold captureCmp at h1 h2 ⊢
  split_ifs at h1 h2 ⊢ <;> omega

/-- C2: the resolver sorts captures by start line, then start column, then
ascending span length, and walks them first-claimed-wins; of two captures at
the same start position the shorter is emitted and the longer is skipped on
the overlapping region, yielding exactly one token for the shorter capture. -/
theorem shorter_span_wins :
    (∀ (cs : List Capture), (sortCaptures cs).Sorted lexLE) ∧
    (∀ (text : String) (r c la lb ia ib : Nat) (na nb : String) (tma tmb : TokenMapping),
      0 < la → la < lb →
      getTokenMapping na = some tma → getTokenMapping nb = some tmb →
      resolveTokens text
        [⟨nb, ⟨r, c⟩, ⟨r, c + lb⟩, ib, ib + lb⟩, ⟨na, ⟨r, c⟩, ⟨r, c + la⟩, ia, ia + la⟩] =
        [⟨r, c, la, jsIndexOf tokenTypes tma.type, encodeModifiers tma.modifiers⟩]) := by
  constructor
  · intro cs
    letI : IsTotal Capture (fun a b => captureCmp a b ≤ 0) := ⟨captureCmp_total⟩
    letI : IsTrans Capture (fun a b => captureCmp a b ≤ 0) := ⟨captureCmp_trans⟩
    exact (List.sorted_insertionSort _ cs).imp fun h => (captureCmp_le_iff _ _).1 h
  · intro text r c la lb ia ib na nb tma tmb hla hlb hna hnb
    have hcmp : ¬(captureCmp ⟨nb, ⟨r, c⟩, ⟨r, c + lb⟩, ib, ib + lb⟩
        ⟨na, ⟨r, c⟩, ⟨r, c + la⟩, ia, ia + la⟩ ≤ 0) := by
      unfold captureCmp
      simp
      omega
    have hsort :
        sortCaptures
          [⟨nb, ⟨r, c⟩, ⟨r, c + lb⟩, ib, ib + lb⟩, ⟨na, ⟨r, c⟩, ⟨r, c + la⟩, ia, ia + la⟩] =
          [⟨na, ⟨r, c⟩, ⟨r, c + la⟩, ia, ia + la⟩, ⟨nb, ⟨r, c⟩, ⟨r, c + lb⟩, ib, ib + lb⟩] := by
      unfold sortCaptures
      simp only [List.insertionSort, List.orderedInsert]
      rw [if_neg hcmp]
    have hA : ∀ (ls : List String),
        processCapture ls ⟨na, ⟨r, c⟩, ⟨r, c + la⟩, ia, ia + la⟩ tma [] =
        ([⟨r, c, la, jsIndexOf tokenTypes tma.type, encodeModifiers tma.modifiers⟩],
          [⟨r, c, c + la⟩]) := by
      intro ls
      unfold processCapture
      rw [if_pos rfl]
      have h1 : 0 < (c + la) - c ∧ isOverlapping [] r c (c + la) = false := ⟨by omega, rfl⟩
      rw [emitSpan_pos h1]
      rw [Nat.add_sub_cancel_left]
      simp
    have hB : ∀ (ls : List String),
        processCapture ls ⟨nb, ⟨r, c⟩, ⟨r, c + lb⟩, ib, ib + lb⟩ tmb [⟨r, c, c + la⟩] =
        ([], [⟨r, c, c + la⟩]) := by
      intro ls
      unfold processCapture
      rw [if_pos rfl]
      apply emitSpan_neg
      intro hcontra
      dsimp only at hcontra
      have hov := hcontra.2
      simp [isOverlapping] at hov
      omega
    unfold resolveTokens
    rw [hsort]
    simp only [resolveLoop, hna, hnb, hA, hB]
    simp

/-- Concrete instance of the specificity scenario: overlapping `comment` and
`keyword` captures at the same start yield exactly the shorter `keyword`
token. -/
theorem shorter_span_wins_witness :
    resolveTokens "beginthisisacomment"
      [⟨"comment", ⟨0, 0⟩, ⟨0, 20⟩, 0, 20⟩, ⟨"keyword", ⟨0, 0⟩, ⟨0, 5⟩, 0, 5⟩] =
      [⟨0, 0, 5, 1, 0⟩] := by
  have h := shorter_span_wins.2 "beginthisisacomment" 0 0 5 20 0 0 "keyword" "comment"
    ⟨"keyword", none⟩ ⟨"comment", none⟩ (by decide) (by decide) (by decide) (by decide)
  have h2 : jsIndexOf tokenTypes "keyword" = 1 := by decide
  have h3 : encodeModifiers (none : Option (List String)) = 0 := by decide
  simpa [h2, h3] using h

/-! ## Dotted-prefix classification lookup -/

theorem splitChar_ne_nil (sep : Char) (l : List Char) : splitChar sep l ≠ [] := by
  cases l with
  | nil => simp [splitChar]
  | cons c cs =>
    cases h : splitChar sep cs with
    | nil => simp [splitChar, h]
    | cons p ps =>
      simp only [splitChar, h]
      split <;> simp

theorem charJoinDot_splitChar (l : List Char) : charJoinDot (splitChar '.' l) = l := by
  induction l with
  | nil => rfl
  | cons c cs ih =>
    cases h : splitChar '.' cs with
    | nil => exact absurd h (splitChar_ne_nil _ _)
    | cons p ps =>
      rw [h] at ih
      have hstep : splitChar '.' (c :: cs) =
          if c = '.' then [] :: p :: ps else (c :: p) :: ps := by
        simp only [splitChar, h]
      rw [hstep]
      by_cases hc : c = '.'
      · subst hc
        rw [if_pos rfl]
        show ([] : List Char) ++ '.' :: charJoinDot (p :: ps) = '.' :: cs
        rw [List.nil_append, ih]
      · rw [if_neg hc]
        cases ps with
        | nil =>
          show c :: p = c :: cs
          rw [show p = cs from ih]
        | cons q qs =>
          show (c :: p) ++ '.' :: charJoinDot (q :: qs) = c :: cs
          rw [← ih]
          rfl

theorem mk_append (a b : List Char) : String.mk a ++ String.mk b = String.mk (a ++ b) := rfl

theorem dot_mk : ("." : String) = String.mk ['.'] := rfl

theorem joinDotStrs_map_mk : ∀ (L : List (List Char)),
    joinDotStrs (L.map String.mk) = String.mk (charJoinDot L)
  | [] => rfl
  | [_] => rfl
  | w :: x :: L => by
    show String.mk w ++ "." ++ joinDotStrs ((x :: L).map String.mk) = _
    rw [joinDotStrs_map_mk (x :: L), dot_mk, mk_append, mk_append]
    show String.mk ((w ++ ['.']) ++ charJoinDot (x :: L)) =
      String.mk (w ++ '.' :: charJoinDot (x :: L))
    rw [List.append_assoc]
    rfl

theorem joinDotStrs_jsSplitDot (s : String) : joinDotStrs (jsSplitDot s) = s := by
  unfold jsSplitDot
  rw [joinDotStrs_map_mk, charJoinDot_splitChar]

theorem tryPrefixes_eq_findSome (parts : List String) : ∀ (k : Nat),
    ((List.range k).reverse.map fun i => joinDotStrs (parts.take (i + 1))).findSome?
        captureToSemanticToken = tryPrefixes parts k := by
  intro k
  induction k with
  | zero => rfl
  | succ k ih =>
    rw [List.range_succ]
    simp only [List.reverse_append, List.reverse_cons, List.reverse_nil, List.nil_append,
      List.singleton_append, List.map_cons, List.findSome?_cons]
    cases hm : captureToSemanticToken (joinDotStrs (parts.take (k + 1))) with
    | some m => simp [tryPrefixes, hm]
    | none =>
      rw [List.map_reverse] at ih
      simp [tryPrefixes, hm, ih]

theorem getTokenMapping_eq_findSome (name : String) :
    getTokenMapping name = (dottedPrefixes name).findSome? captureToSemanticToken := by
  have hparts : jsSplitDot name ≠ [] := by
    unfold jsSplitDot
    simp [splitChar_ne_nil]
  unfold getTokenMapping dottedPrefixes
  rw [tryPrefixes_eq_findSome]
  cases h : captureToSemanticToken name with
  | none => rfl
  | some m =>
    obtain ⟨p, ps, hps⟩ : ∃ p ps, jsSplitDot name = p :: ps := by
      cases hc : jsSplitDot name with
      | nil => exact absurd hc hparts
      | cons p ps => exact ⟨p, ps, rfl⟩
    have htake : (jsSplitDot name).take (jsSplitDot name).length = jsSplitDot name :=
      List.take_length _
    have hid := joinDotStrs_jsSplitDot name
    rw [hps] at htake hid ⊢
    show some m = tryPrefixes (p :: ps) (p :: ps).length
    have hlen : (p :: ps).length = ps.length + 1 := rfl
    rw [hlen]
    show some m =
      (match captureToSemanticToken (joinDotStrs ((p :: ps).take (ps.length + 1))) with
        | some m => some m
        | none => tryPrefixes (p :: ps) ps.length)
    rw [← hlen, htake, hid, h]

/-- C4: classification lookup tries the exact capture name first, then
progressively shorter dot-delimited prefixes from longest to shortest
(`function.method` resolves to its own entry, `function.special` falls back
to `function`, `string.special.other` falls back through `string.special` to
`string`), and a capture whose name matches no prefix is discarded and
produces no resolved token. -/
theorem prefix_fallback_lookup :
    (∀ (name : String),
      getTokenMapping name = (dottedPrefixes name).findSome? captureToSemanticToken) ∧
    getTokenMapping "function.method" = some ⟨"method", none⟩ ∧
    getTokenMapping "function.special" = some ⟨"function", none⟩ ∧
    getTokenMapping "string.special.other" = some ⟨"string", none⟩ ∧
    getTokenMapping "foo.bar" = none ∧
    (∀ (lines : List String) (c : Capture) (rest : List Capture) (st : List ClaimedRange),
      getTokenMapping c.name = none →
      resolveLoop lines (c :: rest) st = resolveLoop lines rest st) := by
  refine ⟨getTokenMapping_eq_findSome, by decide, by decide, by decide, by decide, ?_⟩
  intro lines c rest st h
  simp [resolveLoop, h]

/-- Concrete instance of the discard behaviour of `prefix_fallback_lookup`:
an unclassified capture contributes nothing to the walk. -/
theorem prefix_fallback_lookup_witness :
    getTokenMapping "foo.bar" = none ∧
    resolveLoop [] [⟨"foo.bar", ⟨0, 0⟩, ⟨0, 3⟩, 0, 3⟩] [] = resolveLoop [] [] [] :=
  ⟨by decide,
    prefix_fallback_lookup.2.2.2.2.2 [] ⟨"foo.bar", ⟨0, 0⟩, ⟨0, 3⟩, 0, 3⟩ [] [] (by decide)⟩

/-! ## Token wire-format round trip -/

theorem decodeAux_encodeAux (ts : List Token) : ∀ (prevLine prevChar : Nat),
    (∀ h ∈ ts.head?, prevLine < h.line ∨ (prevLine = h.line ∧ prevChar ≤ h.startChar)) →
    tokensOrdered ts →
    decodeTokensAux prevLine prevChar (encodeTokensAux prevLine prevChar ts) = ts := by
  induction ts with
  | nil => intro _ _ _ _; rfl
  | cons t ts ih =>
    intro prevLine prevChar hhead hord
    have hpos : prevLine < t.line ∨ (prevLine = t.line ∧ prevChar ≤ t.startChar) := by
      simpa using hhead t
    have hcons := List.chain'_cons'.1 hord
    obtain ⟨hR, hord'⟩ := hcons
    simp only [encodeTokensAux, decodeTokensAux]
    have hline : (((prevLine : Int)) + ((t.line : Int) - prevLine)).toNat = t.line := by omega
    by_cases hl : t.line = prevLine
    · rw [if_pos hl, if_pos (by omega)]
      have hsc : (((prevChar : Int)) + ((t.startChar : Int) - prevChar)).toNat = t.startChar := by
        omega
      rw [hline, hsc]
      have htail := ih t.line t.startChar hR hord'
      rw [htail]
      simp
    · rw [if_neg hl, if_neg (by omega)]
      have hsc : ((t.startChar : Int)).toNat = t.startChar := by omega
      rw [hline, hsc]
      have htail := ih t.line t.startChar hR hord'
      rw [htail]
      simp

/-- C5: the wire format is five integers per resolved token — delta line
from the previous token, delta start column (relative to the previous
token's start column on the same line, absolute otherwise), length, type
index, and modifier bitmask — and replaying the deltas in order
reconstructs exactly the resolved-token list, for every list in ascending
(line, startColumn) order. -/
theorem encode_decode_roundtrip (ts : List Token) (h : tokensOrdered ts) :
    decodeTokens (encodeTokens ts) = ts :=
  decodeAux_encodeAux ts 0 0 (by intro x hx; omega) h

/-- Concrete instance of the round-trip law on a three-token list. -/
theorem encode_decode_roundtrip_witness :
    decodeTokens (encodeTokens [⟨0, 0, 4, 1, 0⟩, ⟨0, 5, 3, 8, 0⟩, ⟨2, 0, 3, 8, 2⟩]) =
      [⟨0, 0, 4, 1, 0⟩, ⟨0, 5, 3, 8, 0⟩, ⟨2, 0, 3, 8, 2⟩] :=
  encode_decode_roundtrip _ (by
    unfold tokensOrdered
    rw [List.chain'_cons, List.chain'_cons]
    refine ⟨?_, ?_, List.chain'_singleton _⟩ <;> simp)

/-! ## Failure semantics of the token provider -/

/-- C8: a missing parser/query, a parse exception, a null parse tree and a
query exception each yield an empty token list rather than an error, and an
empty capture set — as produced for an empty document — also yields an
empty token list. -/
theorem failure_yields_empty_tokens :
    (∀ (text : String) (p : Except Unit (Option Unit)) (q : Except Unit (List Capture)),
      provideSemanticTokens false text p q = []) ∧
    (∀ (ready : Bool) (text : String) (q : Except Unit (List Capture)),
      provideSemanticTokens ready text (.error ()) q = []) ∧
    (∀ (ready : Bool) (text : String) (q : Except Unit (List Capture)),
      provideSemanticTokens ready text (.ok none) q = []) ∧
    (∀ (ready : Bool) (text : String) (p : Except Unit (Option Unit)),
      provideSemanticTokens ready text p (.error ()) = []) ∧
    (∀ (ready : Bool) (text : String) (p : Except Unit (Option Unit)),
      provideSemanticTokens ready text p (.ok []) = []) := by
  refine ⟨?_, ?_, ?_, ?_, ?_⟩
  · intro text p q
    simp [provideSemanticTokens]
  · intro ready text q
    cases ready <;> simp [provideSemanticTokens]
  · intro ready text q
    cases ready <;> simp [provideSemanticTokens]
  · intro ready text p
    cases ready <;> rcases p with u | o
    · simp [provideSemanticTokens]
    · rcases o with _ | u <;> simp [provideSemanticTokens]
    · simp [provideSemanticTokens]
    · rcases o with _ | u <;> simp [provideSemanticTokens]
  · intro ready text p
    cases ready <;> rcases p with u | o
    · simp [provideSemanticTokens]
    · rcases o with _ | u <;>
        simp [provideSemanticTokens, resolveTokens, sortCaptures, List.insertionSort, resolveLoop]
    · simp [provideSemanticTokens]
    · rcases o with _ | u <;>
        simp [provideSemanticTokens, resolveTokens, sortCaptures, List.insertionSort, resolveLoop]

/-! ## Margin alignment of inlay hints -/

/-- C6: for every emitted decoration the margin equals `alignColumn − L`
when `alignColumn > 0` and the line's text length `L` is strictly smaller,
and the configured minimum padding otherwise; with alignment column 40 a
line of length 10 gets margin 30 and a line of length 45 gets the minimum
padding. -/
theorem margin_alignment :
    (∀ (alignColumn minPadding : Int) (docLines : List String) (hints : List InlayHint),
      ∀ d ∈ computeDecorations alignColumn minPadding docLines hints,
        d.marginChars =
          if 0 < alignColumn ∧ ((docLines.getD d.line "").length : Int) < alignColumn then
            alignColumn - (docLines.getD d.line "").length
          else minPadding) ∧
    (∀ minPadding : Int, lineMargin 40 minPadding 10 = 30) ∧
    (∀ minPadding : Int, lineMargin 40 minPadding 45 = minPadding) := by
  refine ⟨?_, ?_, ?_⟩
  · intro a m dl hints d hd
    unfold computeDecorations at hd
    obtain ⟨g, hg, rfl⟩ := List.mem_map.1 hd
    rfl
  · intro m
    norm_num [lineMargin]
  · intro m
    norm_num [lineMargin]

/-- Concrete instance of the margin computation: alignment column 40, line
length 10, margin 30. -/
theorem margin_alignment_witness :
    (⟨0, 10, lineCombinedText ["x"], 30⟩ : Decoration).marginChars =
      (if 0 < (40 : Int) ∧ (((["0123456789"].getD (0 : Nat) "").length : Int) < 40) then
        (40 : Int) - (["0123456789"].getD (0 : Nat) "").length
      else 2) :=
  margin_alignment.1 40 2 ["0123456789"] [⟨⟨0, 0⟩, .str "x"⟩]
    ⟨0, 10, lineCombinedText ["x"], 30⟩ (by decide)

/-! ## Empty hint labels -/

/-- C10: a hint whose label is an empty part list is dropped before
grouping — alone on a line it produces no decoration — while a hint whose
label is the empty string is kept: it is grouped, contributes an empty
normalised label, and alone on a line still produces a hint consisting of
just the marker prefix. -/
theorem empty_label_fragments :
    (∀ (p : LspPosition), hintLabelText ⟨p, .parts []⟩ = none) ∧
    (∀ (p : LspPosition) (m : List (Nat × List String)) (rest : List InlayHint),
      groupHintsAux m (⟨p, .parts []⟩ :: rest) = groupHintsAux m rest) ∧
    (∀ (p : LspPosition), hintLabelText ⟨p, .str ""⟩ = some "") ∧
    computeDecorations 40 2 [""] [⟨⟨3, 0⟩, .parts []⟩] = [] ∧
    computeDecorations 40 2 [""] [⟨⟨0, 0⟩, .str ""⟩] = [⟨0, 0, "# ", 40⟩] := by
  refine ⟨fun p => rfl, fun p m rest => rfl, fun p => rfl, by decide, by decide⟩

/-! ## Clearing of hint decorations -/

/-- C9 counterexample: after an errored fetch the per-document decoration
cache still holds the previously rendered decorations for the affected
document — it is neither cleared to an empty entry nor removed, refuting
the claim that both the rendered decorations and the cache are cleared. -/
theorem error_keeps_cache_counterexample :
    cacheGet (updateInlayHintDecorations true "description" "masm" "file:///a.masm" 40 2 [""]
        (.error ()) ⟨[⟨3, 5, "h", 2⟩], [("file:///a.masm", [⟨3, 5, "h", 2⟩])]⟩).cache
      "file:///a.masm" ≠ some [] ∧
    cacheGet (updateInlayHintDecorations true "description" "masm" "file:///a.masm" 40 2 [""]
        (.error ()) ⟨[⟨3, 5, "h", 2⟩], [("file:///a.masm", [⟨3, 5, "h", 2⟩])]⟩).cache
      "file:///a.masm" ≠ none :=
  ⟨by decide, by decide⟩

/-- C9 as amended: a fetch returning zero fragments (`null` or an empty
list) clears both the rendered decorations and the document's cache entry;
an errored fetch clears the rendered decorations but leaves the cache
unchanged; and a line with no fragments in the fetched set gets no
decoration. -/
theorem hint_clearing_semantics :
    (∀ (ht uri : String) (a m : Int) (dl : List String) (st : DecoState),
      ht ≠ "none" →
      updateInlayHintDecorations true ht "masm" uri a m dl (.ok none) st =
        ⟨[], cacheSet st.cache uri []⟩) ∧
    (∀ (ht uri : String) (a m : Int) (dl : List String) (st : DecoState),
      ht ≠ "none" →
      updateInlayHintDecorations true ht "masm" uri a m dl (.ok (some [])) st =
        ⟨[], cacheSet st.cache uri []⟩) ∧
    (∀ (ht uri : String) (a m : Int) (dl : List String) (st : DecoState),
      ht ≠ "none" →
      updateInlayHintDecorations true ht "masm" uri a m dl (.error ()) st =
        { st with rendered := [] }) ∧
    (∀ (a m : Int) (dl : List String) (hints : List InlayHint),
      ∀ d ∈ computeDecorations a m dl hints,
        d.line ∈ (groupHints hints).map Prod.fst) := by
  refine ⟨?_, ?_, ?_, ?_⟩
  · intro ht uri a m dl st h
    simp [updateInlayHintDecorations, h]
  · intro ht uri a m dl st h
    simp [updateInlayHintDecorations, h]
  · intro ht uri a m dl st h
    simp [updateInlayHintDecorations, h]
  · intro a m dl hints d hd
    unfold computeDecorations at hd
    obtain ⟨g, hg, rfl⟩ := List.mem_map.1 hd
    exact List.mem_map_of_mem Prod.fst hg

/-- Concrete instance of the amended clearing semantics: an errored fetch
clears the rendered decorations and keeps the cache entry. -/
theorem hint_clearing_semantics_witness :
    updateInlayHintDecorations true "description" "masm" "u" 40 2 [] (.error ())
        ⟨[⟨0, 0, "x", 2⟩], [("u", [⟨0, 0, "x", 2⟩])]⟩ =
      ⟨[], [("u", [⟨0, 0, "x", 2⟩])]⟩ :=
  hint_clearing_semantics.2.2.1 "description" "u" 40 2 []
    ⟨[⟨0, 0, "x", 2⟩], [("u", [⟨0, 0, "x", 2⟩])]⟩ (by decide)

/-! ## Whitespace normalisation: collapse-and-trim equals words-rejoined -/

theorem dropTrailWs_cons_not {c : Char} (h : isJsWs c = false) (l : List Char) :
    dropTrailWs (c :: l) = c :: dropTrailWs l := by
  simp only [dropTrailWs]
  cases hd : dropTrailWs l with
  | nil => simp [h]
  | cons r rs => rfl

theorem dropTrailWs_cons_ws_of_nil {c : Char} (hc : isJsWs c = true) {l : List Char}
    (h : dropTrailWs l = []) : dropTrailWs (c :: l) = [] := by
  simp [dropTrailWs, h, hc]

theorem dropTrailWs_cons_of_ne {c : Char} {l : List Char} (h : dropTrailWs l ≠ []) :
    dropTrailWs (c :: l) = c :: dropTrailWs l := by
  cases hd : dropTrailWs l with
  | nil => exact absurd hd h
  | cons r rs => simp only [dropTrailWs, hd]

theorem dropTrailWs_append (a b : List Char) :
    dropTrailWs (a ++ b) =
      if dropTrailWs b = [] then dropTrailWs a else a ++ dropTrailWs b := by
  induction a with
  | nil =>
    simp only [List.nil_append]
    split
    case isTrue h => rw [h]; rfl
    case isFalse h => rfl
  | cons c a' ih =>
    by_cases hb : dropTrailWs b = []
    · rw [if_pos hb] at ih ⊢
      show dropTrailWs (c :: (a' ++ b)) = dropTrailWs (c :: a')
      simp only [dropTrailWs, ih]
    · rw [if_neg hb] at ih ⊢
      show dropTrailWs (c :: (a' ++ b)) = (c :: a') ++ dropTrailWs b
      have hne : dropTrailWs (a' ++ b) ≠ [] := by
        rw [ih]
        intro hcontra
        exact hb (List.append_eq_nil.1 hcontra).2
      rw [dropTrailWs_cons_of_ne hne, ih]
      rfl

theorem dropTrailWs_all_not {w : List Char} (h : ∀ c ∈ w, isJsWs c = false) :
    dropTrailWs w = w := by
  induction w with
  | nil => rfl
  | cons c w' ih =>
    rw [dropTrailWs_cons_not (h c (by simp)) w', ih fun x hx => h x (by simp [hx])]

theorem collapse_true_dropWhile (l : List Char) :
    collapseWsAux l true = collapseWsAux (l.dropWhile isJsWs) false := by
  induction l with
  | nil => rfl
  | cons c cs ih =>
    by_cases hc : isJsWs c
    · rw [List.dropWhile_cons_of_pos hc]
      simp only [collapseWsAux, hc, if_true]
      exact ih
    · rw [List.dropWhile_cons_of_neg (by simp [hc])]
      simp [collapseWsAux, hc]

theorem words_dropWhile (l : List Char) :
    wordsAux [] l = wordsAux [] (l.dropWhile isJsWs) := by
  induction l with
  | nil => rfl
  | cons c cs ih =>
    by_cases hc : isJsWs c
    · rw [List.dropWhile_cons_of_pos hc]
      simpa [wordsAux, hc] using ih
    · rw [List.dropWhile_cons_of_neg (by simp [hc])]

theorem dropWhile_head_not {p : Char → Bool} : ∀ (l : List Char) {c : Char} {rest : List Char},
    l.dropWhile p = c :: rest → p c = false := by
  intro l
  induction l with
  | nil => intro c rest h; simp at h
  | cons a l ih =>
    intro c rest h
    by_cases ha : p a
    · rw [List.dropWhile_cons_of_pos ha] at h
      exact ih h
    · rw [List.dropWhile_cons_of_neg (by simp [ha])] at h
      cases h
      simpa using ha

theorem joinWords_cons_ne {w : List Char} {W : List (List Char)} (h : W ≠ []) :
    joinWords (w :: W) = w ++ ' ' :: joinWords W := by
  cases W with
  | nil => exact absurd rfl h
  | cons x xs => rfl

theorem wordsAux_ne_nil_mem (l : List Char) : ∀ (cur : List Char), ∀ w ∈ wordsAux cur l, w ≠ [] := by
  induction l with
  | nil =>
    intro cur w hw
    simp only [wordsAux] at hw
    split at hw
    · simp at hw
    · rename_i hcur
      simp only [List.mem_singleton] at hw
      subst hw
      simpa [List.isEmpty_iff] using hcur
  | cons c cs ih =>
    intro cur w hw
    simp only [wordsAux] at hw
    split at hw
    · split at hw
      · exact ih [] w hw
      · rename_i hcur
        rcases List.mem_cons.1 hw with rfl | hmem
        · simpa [List.isEmpty_iff] using hcur
        · exact ih [] w hmem
    · exact ih (c :: cur) w hw

theorem joinWords_eq_nil_iff {W : List (List Char)} (h : ∀ w ∈ W, w ≠ []) :
    joinWords W = [] ↔ W = [] := by
  cases W with
  | nil => simp [joinWords]
  | cons w ws =>
    cases ws with
    | nil =>
      simp only [joinWords]
      constructor
      · intro hw
        exact absurd hw (h w (by simp))
      · intro hw
        simp at hw
    | cons x xs =>
      simp [joinWords]

theorem collapse_words_main (cs : List Char) :
    (dropTrailWs (collapseWsAux cs true) = joinWords (wordsAux [] cs)) ∧
    (∀ (w : List Char), w ≠ [] → (∀ c ∈ w, isJsWs c = false) →
      dropTrailWs (w ++ collapseWsAux cs false) = joinWords (wordsAux w.reverse cs)) := by
  induction cs with
  | nil =>
    constructor
    · rfl
    · intro w hw hall
      rw [show collapseWsAux [] false = [] from rfl, List.append_nil, dropTrailWs_all_not hall]
      have hrev : w.reverse.isEmpty = false := by
        simp [List.isEmpty_iff, hw]
      simp [wordsAux, hrev, joinWords]
  | cons c cs ih =>
    obtain ⟨ihA, ihQ⟩ := ih
    constructor
    · by_cases hc : isJsWs c
      · have hcol : collapseWsAux (c :: cs) true = collapseWsAux cs true := by
          simp [collapseWsAux, hc]
        have hwords : wordsAux [] (c :: cs) = wordsAux [] cs := by
          simp [wordsAux, hc]
        rw [hcol, hwords, ihA]
      · have hcol : collapseWsAux (c :: cs) true = c :: collapseWsAux cs false := by
          simp [collapseWsAux, hc]
        have hwords : wordsAux [] (c :: cs) = wordsAux [c] cs := by
          simp [wordsAux, hc]
        rw [hcol, hwords]
        have hq := ihQ [c] (by simp) (by simpa using hc)
        simpa using hq
    · intro w hw hall
      by_cases hc : isJsWs c
      · have hrev : w.reverse.isEmpty = false := by
          simp [List.isEmpty_iff, hw]
        have hwords : wordsAux w.reverse (c :: cs) = w :: wordsAux [] cs := by
          simp [wordsAux, hc, hrev]
        have hcol : collapseWsAux (c :: cs) false = ' ' :: collapseWsAux cs true := by
          simp [collapseWsAux, hc]
        rw [hwords, hcol]
        have hsplit : w ++ ' ' :: collapseWsAux cs true =
            w ++ ([' '] ++ collapseWsAux cs true) := by simp
        rw [hsplit, dropTrailWs_append]
        by_cases hnil : dropTrailWs (collapseWsAux cs true) = []
        · have h1 : dropTrailWs ([' '] ++ collapseWsAux cs true) = [] := by
            rw [List.singleton_append]
            exact dropTrailWs_cons_ws_of_nil (by decide) hnil
          rw [if_pos h1, dropTrailWs_all_not hall]
          have hWnil : wordsAux [] cs = [] :=
            (joinWords_eq_nil_iff (wordsAux_ne_nil_mem cs [])).1 (by rw [← ihA]; exact hnil)
          rw [hWnil]
          rfl
        · have h1 : dropTrailWs ([' '] ++ collapseWsAux cs true) =
              ' ' :: dropTrailWs (collapseWsAux cs true) := by
            rw [List.singleton_append]
            exact dropTrailWs_cons_of_ne hnil
          rw [if_neg (by rw [h1]; simp), h1, ihA]
          have hWne : wordsAux [] cs ≠ [] := by
            intro hW0
            apply hnil
            rw [ihA, hW0]
            rfl
          rw [joinWords_cons_ne hWne]
      · have hcol : collapseWsAux (c :: cs) false = c :: collapseWsAux cs false := by
          simp [collapseWsAux, hc]
        have hwords : wordsAux w.reverse (c :: cs) = wordsAux (c :: w.reverse) cs := by
          simp [wordsAux, hc]
        rw [hcol, hwords]
        have hall' : ∀ x ∈ w ++ [c], isJsWs x = false := by
          intro x hx
          rcases List.mem_append.1 hx with h' | h'
          · exact hall x h'
          · simp only [List.mem_singleton] at h'
            subst h'
            simpa using hc
        have hq := ihQ (w ++ [c]) (by simp) hall'
        rw [show w ++ c :: collapseWsAux cs false = (w ++ [c]) ++ collapseWsAux cs false from
          by simp]
        rw [hq]
        simp

theorem collapse_false_dropWhile (l : List Char) :
    (collapseWsAux l false).dropWhile isJsWs = collapseWsAux (l.dropWhile isJsWs) false := by
  cases l with
  | nil => rfl
  | cons c cs =>
    by_cases hc : isJsWs c
    · have hcol : collapseWsAux (c :: cs) false = ' ' :: collapseWsAux cs true := by
        simp [collapseWsAux, hc]
      rw [hcol, List.dropWhile_cons_of_pos (by decide), List.dropWhile_cons_of_pos hc,
        collapse_true_dropWhile]
      cases hd : cs.dropWhile isJsWs with
      | nil => rfl
      | cons x xs =>
        have hx : isJsWs x = false := dropWhile_head_not _ hd
        have hcol2 : collapseWsAux (x :: xs) false = x :: collapseWsAux xs false := by
          simp [collapseWsAux, hx]
        rw [hcol2, List.dropWhile_cons_of_neg (by simp [hx])]
    · have hcol : collapseWsAux (c :: cs) false = c :: collapseWsAux cs false := by
        simp [collapseWsAux, hc]
      rw [hcol, List.dropWhile_cons_of_neg (by simp [hc]), List.dropWhile_cons_of_neg (by simp [hc]),
        hcol]

theorem trim_collapse_eq_joinWords (l : List Char) :
    trimJs (collapseWs l) = joinWords (wordsOf l) := by
  unfold trimJs collapseWs wordsOf
  rw [collapse_false_dropWhile, words_dropWhile]
  cases hd : l.dropWhile isJsWs with
  | nil => rfl
  | cons x xs =>
    have hx : isJsWs x = false := dropWhile_head_not _ hd
    have h1 : collapseWsAux (x :: xs) false = [x] ++ collapseWsAux xs false := by
      simp [collapseWsAux, hx]
    rw [h1, (collapse_words_main xs).2 [x] (by simp) (by simp [hx])]
    have hwords : wordsAux [] (x :: xs) = wordsAux [x] xs := by
      simp [wordsAux, hx]
    rw [hwords]
    simp

theorem normalizeLabel_eq_specNormalize (s : String) : normalizeLabel s = specNormalize s := by
  unfold normalizeLabel specNormalize
  rw [trim_collapse_eq_joinWords]

/-- C7 counterexample: on a line whose single fragment's label starts with a
tab, the code's indentation marker keeps the tab (general whitespace),
while the marker class the claim states (ordinary spaces and the no-break
space only) drops it, so the combined texts differ. -/
theorem combined_text_claim_counterexample :
    lineCombinedText ["\tx"] ≠ claimCombinedText ["\tx"] := by decide

/-- C7 as amended: the combined text takes the leading run of whitespace
(general JavaScript whitespace, including tabs, not just ordinary spaces and
the no-break space) of the first fragment's raw label as the indentation
marker, normalises each label by collapsing whitespace runs to single
spaces and trimming (equivalently, rejoining its whitespace-separated
words), joins the normalised labels with single spaces in their supplied
order, prefixes the fixed marker plus the indentation marker, and replaces
every ordinary space with a no-break space; the emitted decorations carry
exactly this text per grouped line. -/
theorem combined_text_amended :
    (∀ (labelTexts : List String),
      lineCombinedText labelTexts = amendedCombinedText labelTexts) ∧
    (∀ (alignColumn minPadding : Int) (docLines : List String) (hints : List InlayHint),
      (computeDecorations alignColumn minPadding docLines hints).map
          (fun d => (d.line, d.contentText)) =
        (groupHints hints).map fun g => (g.1, amendedCombinedText g.2)) := by
  have haux : ∀ (labelTexts : List String),
      lineCombinedText labelTexts = amendedCombinedText labelTexts := by
    intro labelTexts
    unfold lineCombinedText amendedCombinedText
    rw [show labelTexts.map normalizeLabel = labelTexts.map specNormalize from by
      rw [funext normalizeLabel_eq_specNormalize]]
  refine ⟨haux, ?_⟩
  intro a m dl hints
  unfold computeDecorations
  rw [List.map_map]
  congr 1
  funext g
  simp only [Function.comp_apply]
  rw [haux g.2]

end VscodeMasm
